import Mathlib

/-!
Shallow embedding of the OscilloscopePlot core: the min-max decimator
(`decimate_data` in `oscilloscope_viewer.py`), the binary layout decode path
(`OscilloscopeViewer.load_binary`), the CSV parser registry and format
detection (`parsers/__init__.py` and the `can_parse` methods of the six
parsers), the per-row float coercion of the parse methods, and the
orchestrator's load state transition (`OscilloscopeViewer.load_csv`).

Sequences are embedded as `List ℚ` (the Python code operates on finite
floating point arrays; we use exact rationals and ignore NaN/Inf corner
values).  Fallible Python code (exceptions) is embedded as `Option`.
-/

namespace OscPlot

variable {α β : Type*}

/-- `chunksN f n l` splits `l` into `n` consecutive chunks of `f` elements
each, mirroring numpy's `arr[:n*f].reshape(-1, f)` viewed as a list of rows. -/
def chunksN (f : ℕ) : ℕ → List α → List (List α)
  | 0, _ => []
  | n + 1, l => l.take f :: chunksN f n (l.drop f)

/-- Fold-based minimum of a list, mirroring `numpy.min` on a chunk
(default 0 for the empty list, which never occurs on the code paths). -/
def listMinD : List ℚ → ℚ
  | [] => 0
  | a :: t => t.foldl min a

/-- Fold-based maximum of a list, mirroring `numpy.max` on a chunk. -/
def listMaxD : List ℚ → ℚ
  | [] => 0
  | a :: t => t.foldl max a

/-- `numpy.repeat(l, 2)`: every element duplicated in place. -/
def dup2 : List α → List α
  | [] => []
  | a :: t => a :: a :: dup2 t

/-- `numpy.dstack((as, bs)).flatten()`: interleave two equal-length lists. -/
def interleave2 : List α → List α → List α
  | a :: as, b :: bs => a :: b :: interleave2 as bs
  | _, _ => []

/-- `decimation_factor = len(x) // (max_points // 2)` from `decimate_data`. -/
def decFactor (len m : ℕ) : ℕ := len / (m / 2)

/-- `n_chunks = len(x) // decimation_factor` from `decimate_data`. -/
def decChunks (len m : ℕ) : ℕ := len / decFactor len m

/-- The row list of `arr[:n_chunks * decimation_factor].reshape(-1, decimation_factor)`
from `decimate_data`. -/
def decChunkList (len m : ℕ) (l : List ℚ) : List (List ℚ) :=
  chunksN (decFactor len m) (decChunks len m) (l.take (decChunks len m * decFactor len m))

/-- Embedding of `decimate_data(x, y, max_points)` from
`oscilloscope_viewer.py` (lines 312-334).  Returns `none` exactly when the
Python code raises `ZeroDivisionError` (`max_points // 2 == 0` while
decimation is needed). -/
def decimate_data (x y : List ℚ) (maxPoints : ℕ) : Option (List ℚ × List ℚ) :=
  if x.length ≤ maxPoints then some (x, y)
  else if maxPoints / 2 = 0 then none
  else
    some (dup2 ((decChunkList x.length maxPoints x).map (fun c => c.headD 0)),
          interleave2 ((decChunkList x.length maxPoints y).map listMinD)
                      ((decChunkList x.length maxPoints y).map listMaxD))

example :
    decimate_data [0, 1, 2, 3, 4, 5, 6, 7] [5, 1, 9, 2, 8, 0, 7, 3] 4 =
      some ([0, 0, 4, 4], [1, 9, 0, 8]) := by decide

theorem length_chunksN (f n : ℕ) (l : List α) : (chunksN f n l).length = n := by
  induction n generalizing l with
  | zero => rfl
  | succ n ih => simp [chunksN, ih]

theorem chunksN_getElem? (f n i : ℕ) (l : List α) (hi : i < n) :
    (chunksN f n l)[i]? = some ((l.drop (i * f)).take f) := by
  induction n generalizing i l with
  | zero => omega
  | succ n ih =>
    cases i with
    | zero => simp [chunksN]
    | succ i =>
      have h2 : i < n := by omega
      rw [show (i + 1) * f = f + i * f by ring]
      simp only [chunksN, List.getElem?_cons_succ]
      rw [ih i (l.drop f) h2, List.drop_drop]

theorem dup2_length (l : List α) : (dup2 l).length = 2 * l.length := by
  induction l with
  | nil => rfl
  | cons a t ih => simp [dup2, ih]; omega

theorem dup2_getElem? (l : List α) (k : ℕ) : (dup2 l)[k]? = l[k / 2]? := by
  induction l generalizing k with
  | nil => simp [dup2]
  | cons a t ih =>
    match k with
    | 0 => simp [dup2]
    | 1 => simp [dup2]
    | (k + 2) =>
      have hdiv : (k + 2) / 2 = k / 2 + 1 := by omega
      simp [dup2, hdiv, ih]

theorem interleave2_length (as bs : List α) (h : as.length = bs.length) :
    (interleave2 as bs).length = 2 * as.length := by
  induction as generalizing bs with
  | nil =>
    cases bs with
    | nil => rfl
    | cons b bs => simp at h
  | cons a as ih =>
    cases bs with
    | nil => simp at h
    | cons b bs =>
      simp only [List.length_cons, Nat.succ.injEq] at h
      simp [interleave2, ih bs h]
      omega

theorem interleave2_getElem?_even (as bs : List α) (h : as.length = bs.length) (i : ℕ) :
    (interleave2 as bs)[2 * i]? = as[i]? := by
  induction as generalizing bs i with
  | nil =>
    cases bs with
    | nil => simp [interleave2]
    | cons b bs => simp at h
  | cons a as ih =>
    cases bs with
    | nil => simp at h
    | cons b bs =>
      simp only [List.length_cons, Nat.succ.injEq] at h
      cases i with
      | zero => simp [interleave2]
      | succ i =>
        have : 2 * (i + 1) = 2 * i + 1 + 1 := by omega
        rw [this]
        simpa [interleave2] using ih bs h i

theorem interleave2_getElem?_odd (as bs : List α) (h : as.length = bs.length) (i : ℕ) :
    (interleave2 as bs)[2 * i + 1]? = bs[i]? := by
  induction as generalizing bs i with
  | nil =>
    cases bs with
    | nil => simp [interleave2]
    | cons b bs => simp at h
  | cons a as ih =>
    cases bs with
    | nil => simp at h
    | cons b bs =>
      simp only [List.length_cons, Nat.succ.injEq] at h
      cases i with
      | zero => simp [interleave2]
      | succ i =>
        have : 2 * (i + 1) + 1 = 2 * i + 1 + 1 + 1 := by omega
        rw [this]
        simpa [interleave2] using ih bs h i

theorem foldl_min_le (t : List ℚ) (a : ℚ) : t.foldl min a ≤ a := by
  induction t generalizing a with
  | nil => exact le_refl a
  | cons b t ih => exact le_trans (ih (min a b)) (min_le_left a b)

theorem le_foldl_max (t : List ℚ) (a : ℚ) : a ≤ t.foldl max a := by
  induction t generalizing a with
  | nil => exact le_refl a
  | cons b t ih => exact le_trans (le_max_left a b) (ih (max a b))

theorem listMinD_le_listMaxD (l : List ℚ) : listMinD l ≤ listMaxD l := by
  cases l with
  | nil => exact le_refl 0
  | cons a t => exact le_trans (foldl_min_le t a) (le_foldl_max t a)

theorem take_drop_take (l : List α) (N a f : ℕ) (h : a + f ≤ N) :
    ((l.take N).drop a).take f = (l.drop a).take f := by
  rw [List.drop_take, List.take_take, min_eq_left (by omega)]

theorem flatten_chunksN (f n : ℕ) (l : List α) : (chunksN f n l).flatten = l.take (n * f) := by
  induction n generalizing l with
  | zero => simp [chunksN]
  | succ n ih =>
    have : (n + 1) * f = f + n * f := by ring
    simp [chunksN, ih, this, List.take_add]

theorem chunksN_two_dup2 (t : List α) :
    chunksN 2 t.length (dup2 t) = t.map (fun a => [a, a]) := by
  induction t with
  | nil => rfl
  | cons a t ih => simp [dup2, chunksN, ih]

theorem chunksN_two_interleave2 (as bs : List α) (h : as.length = bs.length) :
    chunksN 2 as.length (interleave2 as bs) = List.zipWith (fun a b => [a, b]) as bs := by
  induction as generalizing bs with
  | nil => rfl
  | cons a as ih =>
    cases bs with
    | nil => simp at h
    | cons b bs =>
      simp only [List.length_cons, Nat.succ.injEq] at h
      simp [interleave2, chunksN, ih bs h]

theorem headD_eq_getElem?_zero (l : List α) (d : α) : l.headD d = l[0]?.getD d := by
  cases l <;> simp

theorem le_ceil_mul (a f : ℕ) (hf : 0 < f) : a ≤ ((a + f - 1) / f) * f := by
  have h1 := Nat.div_add_mod (a + f - 1) f
  have h2 : (a + f - 1) % f < f := Nat.mod_lt _ hf
  rw [mul_comm]
  omega

theorem half_ne_zero {m : ℕ} (hm : 2 ≤ m) : m / 2 ≠ 0 := by omega

theorem decFactor_two_le (len m : ℕ) (hm : 2 ≤ m) (hgt : m < len) : 2 ≤ decFactor len m := by
  have h2 : 0 < m / 2 := by omega
  exact (Nat.le_div_iff_mul_le h2).2 (by omega)

theorem decChunks_pos (len m : ℕ) (hm : 2 ≤ m) (hgt : m < len) : 0 < decChunks len m := by
  have hf := decFactor_two_le len m hm hgt
  have hle : decFactor len m ≤ len := Nat.div_le_self len (m / 2)
  exact Nat.div_pos hle (by omega)

theorem decChunks_mul_le (len m : ℕ) : decChunks len m * decFactor len m ≤ len :=
  Nat.div_mul_le_self len (decFactor len m)

theorem decimate_data_eq (x y : List ℚ) (m : ℕ) (h1 : ¬ x.length ≤ m) (h2 : m / 2 ≠ 0) :
    decimate_data x y m =
      some (dup2 ((decChunkList x.length m x).map (fun c => c.headD 0)),
            interleave2 ((decChunkList x.length m y).map listMinD)
                        ((decChunkList x.length m y).map listMaxD)) := by
  simp [decimate_data, h1, h2]

theorem length_decChunkList (len m : ℕ) (l : List ℚ) :
    (decChunkList len m l).length = decChunks len m :=
  length_chunksN _ _ _

theorem decChunkList_getElem? (len m i : ℕ) (l : List ℚ) (hi : i < decChunks len m) :
    (decChunkList len m l)[i]? =
      some ((l.drop (i * decFactor len m)).take (decFactor len m)) := by
  rw [decChunkList, chunksN_getElem? _ _ _ _ hi, take_drop_take]
  have h3 : (i + 1) * decFactor len m ≤ decChunks len m * decFactor len m :=
    Nat.mul_le_mul_right _ (by omega)
  rw [Nat.succ_mul] at h3
  exact h3

/-- C1: when decimation applies (equal-length inputs, `len(time) > maxPoints`,
`maxPoints ≥ 2`), the input is partitioned into `decChunks` consecutive chunks
of `decFactor = len // (maxPoints // 2)` samples; for every chunk `i` the
output value list holds the chunk's minimum at index `2*i` and its maximum at
index `2*i+1`, and the output time list holds the first sample's time of
chunk `i` at both indices `2*i` and `2*i+1`. -/
theorem decimate_chunk_minmax (x y : List ℚ) (m i : ℕ)
    (hlen : y.length = x.length) (hm : 2 ≤ m) (hgt : m < x.length)
    (hi : i < decChunks x.length m) :
    ∃ xo yo, decimate_data x y m = some (xo, yo) ∧
      yo[2 * i]? =
        some (listMinD ((y.drop (i * decFactor x.length m)).take (decFactor x.length m))) ∧
      yo[2 * i + 1]? =
        some (listMaxD ((y.drop (i * decFactor x.length m)).take (decFactor x.length m))) ∧
      xo[2 * i]? =
        some (((x.drop (i * decFactor x.length m)).take (decFactor x.length m)).headD 0) ∧
      xo[2 * i + 1]? =
        some (((x.drop (i * decFactor x.length m)).take (decFactor x.length m)).headD 0) := by
  have h1 : ¬ x.length ≤ m := by omega
  have h2 : m / 2 ≠ 0 := half_ne_zero hm
  refine ⟨_, _, decimate_data_eq x y m h1 h2, ?_, ?_, ?_, ?_⟩
  · rw [interleave2_getElem?_even _ _ (by simp [length_decChunkList]) i,
        List.getElem?_map, decChunkList_getElem? _ _ _ _ hi]
    rfl
  · rw [interleave2_getElem?_odd _ _ (by simp [length_decChunkList]) i,
        List.getElem?_map, decChunkList_getElem? _ _ _ _ hi]
    rfl
  · rw [dup2_getElem?, show 2 * i / 2 = i by omega,
        List.getElem?_map, decChunkList_getElem? _ _ _ _ hi]
    rfl
  · rw [dup2_getElem?, show (2 * i + 1) / 2 = i by omega,
        List.getElem?_map, decChunkList_getElem? _ _ _ _ hi]
    rfl

/-- Witness for C1: the spec's worked example, chunk `i = 1` of
time `[0..7]`, values `[5,1,9,2,8,0,7,3]`, `maxPoints = 4`. -/
theorem decimate_chunk_minmax_witness :
    ∃ xo yo,
      decimate_data [0, 1, 2, 3, 4, 5, 6, 7] [5, 1, 9, 2, 8, 0, 7, 3] 4 = some (xo, yo) ∧
      yo[2 * 1]? =
        some (listMinD ((([5, 1, 9, 2, 8, 0, 7, 3] : List ℚ).drop (1 * decFactor 8 4)).take
          (decFactor 8 4))) ∧
      yo[2 * 1 + 1]? =
        some (listMaxD ((([5, 1, 9, 2, 8, 0, 7, 3] : List ℚ).drop (1 * decFactor 8 4)).take
          (decFactor 8 4))) ∧
      xo[2 * 1]? =
        some (((([0, 1, 2, 3, 4, 5, 6, 7] : List ℚ).drop (1 * decFactor 8 4)).take
          (decFactor 8 4)).headD 0) ∧
      xo[2 * 1 + 1]? =
        some (((([0, 1, 2, 3, 4, 5, 6, 7] : List ℚ).drop (1 * decFactor 8 4)).take
          (decFactor 8 4)).headD 0) :=
  decimate_chunk_minmax [0, 1, 2, 3, 4, 5, 6, 7] [5, 1, 9, 2, 8, 0, 7, 3] 4 1
    (by decide) (by decide) (by decide) (by decide)

/-- C2 (amended): for equal-length inputs with `len(input) > maxPoints ≥ 2`,
both output lists have length `2 * floor(len / factor)` with
`factor = floor(len / floor(maxPoints/2))`; this is `≤ maxPoints` whenever
`(maxPoints/2)^2 ≤ len`, but not in general (see the counterexample). -/
theorem decimate_output_length (x y : List ℚ) (m : ℕ)
    (hlen : y.length = x.length) (hm : 2 ≤ m) (hgt : m < x.length) :
    ∃ xo yo, decimate_data x y m = some (xo, yo) ∧
      xo.length = 2 * decChunks x.length m ∧
      yo.length = 2 * decChunks x.length m ∧
      ((m / 2) * (m / 2) ≤ x.length → 2 * decChunks x.length m ≤ m) := by
  have h1 : ¬ x.length ≤ m := by omega
  have h2 : m / 2 ≠ 0 := half_ne_zero hm
  refine ⟨_, _, decimate_data_eq x y m h1 h2, ?_, ?_, ?_⟩
  · rw [dup2_length, List.length_map, length_decChunkList]
  · rw [interleave2_length _ _ (by simp [length_decChunkList]), List.length_map,
        length_decChunkList]
  · intro hbig
    have hh : 0 < m / 2 := by omega
    have hf : m / 2 ≤ x.length / (m / 2) := (Nat.le_div_iff_mul_le hh).2 hbig
    have hfpos : 0 < x.length / (m / 2) := lt_of_lt_of_le hh hf
    have hmod := Nat.div_add_mod x.length (m / 2)
    have hmodlt : x.length % (m / 2) < m / 2 := Nat.mod_lt _ hh
    have hstep1 : x.length < m / 2 * (x.length / (m / 2)) + m / 2 := by
      conv_lhs => rw [← hmod]
      exact Nat.add_lt_add_left hmodlt _
    have hstep2 : m / 2 * (x.length / (m / 2)) + m / 2 ≤
        m / 2 * (x.length / (m / 2)) + x.length / (m / 2) := Nat.add_le_add_left hf _
    have hlt : x.length < (m / 2 + 1) * (x.length / (m / 2)) := by
      rw [add_mul, one_mul]
      exact lt_of_lt_of_le hstep1 hstep2
    have hn : decChunks x.length m < m / 2 + 1 := by
      rw [decChunks, decFactor]
      exact (Nat.div_lt_iff_lt_mul hfpos).2 hlt
    omega

/-- Witness for C2 at the spec's example input (`(4/2)^2 = 4 ≤ 8`). -/
theorem decimate_output_length_witness :
    ∃ xo yo,
      decimate_data [0, 1, 2, 3, 4, 5, 6, 7] [5, 1, 9, 2, 8, 0, 7, 3] 4 = some (xo, yo) ∧
      xo.length = 2 * decChunks 8 4 ∧
      yo.length = 2 * decChunks 8 4 ∧
      (4 / 2 * (4 / 2) ≤ 8 → 2 * decChunks 8 4 ≤ 4) :=
  decimate_output_length [0, 1, 2, 3, 4, 5, 6, 7] [5, 1, 9, 2, 8, 0, 7, 3] 4
    (by decide) (by decide) (by decide)

/-- C2 counterexample: for 11 samples and `maxPoints = 8`, `factor = 11 // 4 = 2`
gives 5 chunks and an output of length 10 > 8, refuting "output length is
always ≤ maxPoints". -/
theorem decimate_length_bound_cex :
    decimate_data [0, 1, 2, 3, 4, 5, 6, 7, 8, 9, 10] [0, 1, 2, 3, 4, 5, 6, 7, 8, 9, 10] 8 =
      some ([0, 0, 2, 2, 4, 4, 6, 6, 8, 8], [0, 1, 2, 3, 4, 5, 6, 7, 8, 9]) ∧
    ¬ (([0, 0, 2, 2, 4, 4, 6, 6, 8, 8] : List ℚ).length ≤ 8) := by decide

/-- C3: when `len(time) ≤ maxPoints`, decimate returns its inputs unchanged. -/
theorem decimate_identity_small (x y : List ℚ) (m : ℕ) (h : x.length ≤ m) :
    decimate_data x y m = some (x, y) := by
  simp [decimate_data, h]

/-- Witness for C3 at a concrete input. -/
theorem decimate_identity_small_witness :
    decimate_data [1, 2, 3] [4, 5, 6] 10 = some ([1, 2, 3], [4, 5, 6]) :=
  decimate_identity_small [1, 2, 3] [4, 5, 6] 10 (by decide)

/-- The GUI "Max Points" spinbox minimum, `setRange(100, 10000000)` in
`OscilloscopeViewer.setup_ui` (line 431). -/
def decimationSpinboxMin : ℕ := 100

/-- C9: `decimate_data` has no internal guard for small `maxPoints`: whenever
decimation is needed and `maxPoints ≤ 1`, `maxPoints // 2 = 0` and the factor
computation divides by zero (embedded as `none`); any `maxPoints` at or above
the GUI spinbox minimum of 100 never hits this failure. -/
theorem decimate_small_maxpoints_fails :
    (∀ (x y : List ℚ) (m : ℕ), m ≤ 1 → m < x.length → decimate_data x y m = none) ∧
    (∀ (x y : List ℚ) (m : ℕ), decimationSpinboxMin ≤ m → decimate_data x y m ≠ none) := by
  constructor
  · intro x y m hm hgt
    have h1 : ¬ x.length ≤ m := by omega
    have h2 : m / 2 = 0 := by omega
    simp [decimate_data, h1, h2]
  · intro x y m hm
    by_cases hsmall : x.length ≤ m
    · simp [decimate_data, hsmall]
    · have h2 : ¬ m / 2 = 0 := by simp [decimationSpinboxMin] at hm; omega
      simp [decimate_data, hsmall, h2]

theorem listMinD_pair (a b : ℚ) : listMinD [a, b] = min a b := rfl

theorem listMaxD_pair (a b : ℚ) : listMaxD [a, b] = max a b := rfl

/-- C4: decimate is idempotent: re-running it with the same `maxPoints` on its
own output returns that output unchanged (for equal-length inputs and
`maxPoints ≥ 2`; the fixed point is reached in one pass). -/
theorem decimate_idempotent (x y : List ℚ) (m : ℕ) (hlen : y.length = x.length)
    (hm : 2 ≤ m) (xo yo : List ℚ) (hout : decimate_data x y m = some (xo, yo)) :
    decimate_data xo yo m = some (xo, yo) := by
  by_cases hsmall : x.length ≤ m
  · rw [decimate_data, if_pos hsmall] at hout
    obtain ⟨h1, h2⟩ := Prod.mk.injEq .. ▸ Option.some.inj hout
    subst h1; subst h2
    rw [decimate_data, if_pos hsmall]
  · have h2 : m / 2 ≠ 0 := half_ne_zero hm
    have hgt : m < x.length := by omega
    rw [decimate_data_eq x y m hsmall h2] at hout
    obtain ⟨h1, h2'⟩ := Prod.mk.injEq .. ▸ Option.some.inj hout
    subst h1; subst h2'
    set f := decFactor x.length m with hf_def
    set n := decChunks x.length m with hn_def
    set L := decChunkList x.length m y with hL_def
    set heads := (decChunkList x.length m x).map (fun c => c.headD 0) with hheads_def
    have hheads_len : heads.length = n := by
      rw [hheads_def, List.length_map, length_decChunkList]
    have hmins_len : (L.map listMinD).length = n := by
      rw [List.length_map, hL_def, length_decChunkList]
    have hmaxs_len : (L.map listMaxD).length = n := by
      rw [List.length_map, hL_def, length_decChunkList]
    have hxo_len : (dup2 heads).length = 2 * n := by rw [dup2_length, hheads_len]
    have hyo_len : (interleave2 (L.map listMinD) (L.map listMaxD)).length = 2 * n := by
      rw [interleave2_length _ _ (hmins_len.trans hmaxs_len.symm), hmins_len]
    by_cases hsm2 : (dup2 heads).length ≤ m
    · rw [decimate_data, if_pos hsm2]
    · -- the output is longer than maxPoints: a second pass re-chunks in pairs
      have h2n : m < 2 * n := by omega
      have hfge2 : 2 ≤ f := decFactor_two_le x.length m hm hgt
      have hh : 0 < m / 2 := by omega
      have hnf : n * f ≤ x.length := by rw [hn_def, hf_def]; exact decChunks_mul_le _ _
      have hmod := Nat.div_add_mod x.length (m / 2)
      have hmodlt : x.length % (m / 2) < m / 2 := Nat.mod_lt _ hh
      have hflen : m / 2 * f = m / 2 * (x.length / (m / 2)) := by rw [hf_def, decFactor]
      have hlen_lt : x.length < m / 2 * f + m / 2 := by
        rw [hflen]
        conv_lhs => rw [← hmod]
        exact Nat.add_lt_add_left hmodlt _
      have e3 : 2 * (m / 2) ≤ m / 2 * f :=
        le_trans (le_of_eq (mul_comm 2 (m / 2))) (Nat.mul_le_mul_left _ hfge2)
      have key : f * (2 * n) < f * (3 * (m / 2)) := by
        have k1 : f * (2 * n) = 2 * (n * f) := by ring
        have k2 : f * (3 * (m / 2)) = 3 * (m / 2 * f) := by ring
        rw [k1, k2]
        omega
      have h2n3h : 2 * n < 3 * (m / 2) := Nat.lt_of_mul_lt_mul_left key
      have hfactor2 : decFactor (2 * n) m = 2 := by
        rw [decFactor]
        exact Nat.div_eq_of_lt_le (by omega) (by omega)
      have hchunksn : decChunks (2 * n) m = n := by
        rw [decChunks, hfactor2]
        omega
      have htake_x : (dup2 heads).take (n * 2) = dup2 heads :=
        List.take_of_length_le (by omega)
      have htake_y : (interleave2 (L.map listMinD) (L.map listMaxD)).take (n * 2) =
          interleave2 (L.map listMinD) (L.map listMaxD) :=
        List.take_of_length_le (by omega)
      rw [decimate_data_eq _ _ _ hsm2 h2, hxo_len]
      simp only [decChunkList]
      rw [hfactor2, hchunksn, htake_x, htake_y]
      have hx_side : (chunksN 2 n (dup2 heads)).map (fun c => c.headD 0) = heads := by
        rw [← hheads_len, chunksN_two_dup2, List.map_map]
        exact List.map_id heads
      have hchunks_y : chunksN 2 n (interleave2 (L.map listMinD) (L.map listMaxD)) =
          List.zipWith (fun a b => [a, b]) (L.map listMinD) (L.map listMaxD) := by
        rw [← hmins_len]
        exact chunksN_two_interleave2 _ _ (hmins_len.trans hmaxs_len.symm)
      have hmin_side : (chunksN 2 n (interleave2 (L.map listMinD) (L.map listMaxD))).map
          listMinD = L.map listMinD := by
        rw [hchunks_y, List.map_zipWith]
        have : List.zipWith (fun a b => listMinD [a, b]) (L.map listMinD) (L.map listMaxD) =
            List.zipWith (fun a b => min a b) (L.map listMinD) (L.map listMaxD) := rfl
        rw [this, List.zipWith_map, List.zipWith_same]
        exact List.map_congr_left fun c _ => min_eq_left (listMinD_le_listMaxD c)
      have hmax_side : (chunksN 2 n (interleave2 (L.map listMinD) (L.map listMaxD))).map
          listMaxD = L.map listMaxD := by
        rw [hchunks_y, List.map_zipWith]
        have : List.zipWith (fun a b => listMaxD [a, b]) (L.map listMinD) (L.map listMaxD) =
            List.zipWith (fun a b => max a b) (L.map listMinD) (L.map listMaxD) := rfl
        rw [this, List.zipWith_map, List.zipWith_same]
        exact List.map_congr_left fun c _ => max_eq_right (listMinD_le_listMaxD c)
      rw [hx_side, hmin_side, hmax_side]

/-- Witness for C4: idempotence at the spec's example input. -/
theorem decimate_idempotent_witness :
    decimate_data [0, 0, 4, 4] [1, 9, 0, 8] 4 = some ([0, 0, 4, 4], [1, 9, 0, 8]) :=
  decimate_idempotent [0, 1, 2, 3, 4, 5, 6, 7] [5, 1, 9, 2, 8, 0, 7, 3] 4
    (by decide) (by decide) [0, 0, 4, 4] [1, 9, 0, 8] (by decide)

/-- C10: decimate preserves the Series time-axis invariant: if the input time
list is monotonically non-decreasing (and `maxPoints ≥ 2`, equal-length
inputs), the output time list is also monotonically non-decreasing, because it
takes the first sample's time of each chunk in chunk order, duplicated. -/
theorem decimate_time_monotone (x y : List ℚ) (m : ℕ) (hlen : y.length = x.length)
    (hm : 2 ≤ m) (hx : x.Pairwise (· ≤ ·)) (xo yo : List ℚ)
    (hout : decimate_data x y m = some (xo, yo)) : xo.Pairwise (· ≤ ·) := by
  by_cases hsmall : x.length ≤ m
  · rw [decimate_data, if_pos hsmall] at hout
    obtain ⟨h1, h2'⟩ := Prod.mk.injEq .. ▸ Option.some.inj hout
    subst h1
    exact hx
  · have h2 : m / 2 ≠ 0 := half_ne_zero hm
    have hgt : m < x.length := by omega
    rw [decimate_data_eq x y m hsmall h2] at hout
    obtain ⟨h1, h2'⟩ := Prod.mk.injEq .. ▸ Option.some.inj hout
    subst h1
    set f := decFactor x.length m with hf_def
    set n := decChunks x.length m with hn_def
    have hfge2 : 2 ≤ f := decFactor_two_le x.length m hm hgt
    have hnf : n * f ≤ x.length := by rw [hn_def, hf_def]; exact decChunks_mul_le _ _
    set heads := (decChunkList x.length m x).map (fun c => c.headD 0) with hheads_def
    have hheads_len : heads.length = n := by
      rw [hheads_def, List.length_map, length_decChunkList]
    have hval : ∀ i, i < n → heads[i]? = some (x.getD (i * f) 0) := by
      intro i hi
      rw [hheads_def, List.getElem?_map, decChunkList_getElem? _ _ _ _ hi, ← hf_def]
      have hhd : ((x.drop (i * f)).take f).headD 0 = x.getD (i * f) 0 := by
        rw [headD_eq_getElem?_zero, List.getElem?_take_of_lt (by omega),
            List.getElem?_drop, Nat.add_zero, List.getD_eq_getElem?_getD]
      rw [Option.map_some', hhd]
    have hlen2 : (dup2 heads).length = 2 * n := by rw [dup2_length, hheads_len]
    rw [List.pairwise_iff_getElem]
    intro i j hi hj hij
    have hi2 : i < 2 * n := by omega
    have hj2 : j < 2 * n := by omega
    have hqi : i / 2 < n := by omega
    have hqj : j / 2 < n := by omega
    have hvi : (dup2 heads)[i] = x.getD (i / 2 * f) 0 := by
      have e1 : (dup2 heads)[i]? = some (x.getD (i / 2 * f) 0) := by
        rw [dup2_getElem?, hval _ hqi]
      rw [List.getElem?_eq_getElem hi] at e1
      exact Option.some.inj e1
    have hvj : (dup2 heads)[j] = x.getD (j / 2 * f) 0 := by
      have e1 : (dup2 heads)[j]? = some (x.getD (j / 2 * f) 0) := by
        rw [dup2_getElem?, hval _ hqj]
      rw [List.getElem?_eq_getElem hj] at e1
      exact Option.some.inj e1
    rw [hvi, hvj]
    have hq : i / 2 ≤ j / 2 := Nat.div_le_div_right (le_of_lt hij)
    rcases eq_or_lt_of_le hq with heq | hlt
    · rw [heq]
    · have ha : i / 2 * f < x.length :=
        lt_of_lt_of_le ((Nat.mul_lt_mul_right (by omega)).2 hqi) hnf
      have hb : j / 2 * f < x.length :=
        lt_of_lt_of_le ((Nat.mul_lt_mul_right (by omega)).2 hqj) hnf
      have hab : i / 2 * f < j / 2 * f := (Nat.mul_lt_mul_right (by omega)).2 hlt
      rw [List.getD_eq_getElem?_getD, List.getD_eq_getElem?_getD,
          List.getElem?_eq_getElem ha, List.getElem?_eq_getElem hb]
      simpa using List.pairwise_iff_getElem.mp hx _ _ ha hb hab

/-- Witness for C10: monotone input times stay monotone after decimation. -/
theorem decimate_time_monotone_witness :
    ([0, 0, 2, 2, 4, 4, 6, 6, 8, 8] : List ℚ).Pairwise (· ≤ ·) :=
  decimate_time_monotone [0, 1, 2, 3, 4, 5, 6, 7, 8, 9, 10] [0, 1, 2, 3, 4, 5, 6, 7, 8, 9, 10] 8
    (by decide) (by decide) (by decide) [0, 0, 2, 2, 4, 4, 6, 6, 8, 8]
    [0, 1, 2, 3, 4, 5, 6, 7, 8, 9] (by decide)

/-- Witness for C9: `maxPoints = 1` on a 2-sample series fails; the spinbox
minimum of 100 yields a result on the same series. -/
theorem decimate_small_maxpoints_fails_witness :
    decimate_data [0, 1] [5, 6] 1 = none ∧ decimate_data [0, 1] [5, 6] 100 ≠ none :=
  ⟨decimate_small_maxpoints_fails.1 [0, 1] [5, 6] 1 (by decide) (by decide),
   decimate_small_maxpoints_fails.2 [0, 1] [5, 6] 100 (by decide)⟩

/-! ### Binary load path (`OscilloscopeViewer.load_binary`, lines 608-715)

The file is modelled as its contents decoded elementwise (`fileElems`), so the
file size in bytes is `width * fileElems.length`; byte-granular offsets and
lengths are kept exact.  The element width comes from the dtype table
(`int8 … float64`, widths 1/2/4/8); `width = 0` stands for an unknown dtype
tag, which the Python code rejects before reading. -/

/-- Descriptor fields collected by `BinaryImportDialog.get_params`. -/
structure BinParams where
  width : ℕ
  chanCount : ℕ
  chanIndex : ℕ
  offsetBytes : ℕ
  lengthBytes : ℕ
  sampleRate : ℚ
  scale : ℚ
  dcOffset : ℚ

/-- `sample_bytes = np_dtype.itemsize * ch_count` with `ch_count = max(1, channel_count)`. -/
def sampleBytes (p : BinParams) : ℕ := p.width * max 1 p.chanCount

/-- `eff_offset = ((offset + sample_bytes - 1) // sample_bytes) * sample_bytes`. -/
def effOffset (p : BinParams) : ℕ :=
  (p.offsetBytes + sampleBytes p - 1) / sampleBytes p * sampleBytes p

/-- `eff_length_bytes = max(0, length_bytes - max(0, eff_offset - offset))` when a
length was requested, else 0 (truncated ℕ subtraction models both `max(0, ·)`). -/
def effLengthBytes (p : BinParams) : ℕ :=
  if 0 < p.lengthBytes then p.lengthBytes - (effOffset p - p.offsetBytes) else 0

/-- The `count` argument of `np.fromfile`: from the truncated length if one was
given, else from the bytes remaining after `eff_offset`. -/
def readCount (p : BinParams) (fileElems : List ℚ) : ℕ :=
  if 0 < effLengthBytes p then effLengthBytes p / p.width
  else (p.width * fileElems.length - effOffset p) / p.width

/-- The elements `np.fromfile` returns: at most `count` elements starting at
`eff_offset` (which is a multiple of the element width). -/
def binData (p : BinParams) (fileElems : List ℚ) : List ℚ :=
  (fileElems.drop (effOffset p / p.width)).take (readCount p fileElems)

/-- `data.reshape(total_samples, ch_count)[:, ch_index]` with the incomplete
trailing row dropped; `none` when `total_samples == 0` (the code raises). -/
def selectChannel (chCount chIndex : ℕ) (data : List ℚ) : Option (List ℚ) :=
  if 1 < chCount then
    let total := data.length / chCount
    if total = 0 then none
    else some ((chunksN chCount total (data.take (total * chCount))).map
                 (fun row => row.getD chIndex 0))
  else some data

/-- Embedding of the successful paths of `OscilloscopeViewer.load_binary`:
validation, offset alignment, read, channel de-interleave, time synthesis
`t[i] = i / sample_rate` and scaling `y = raw * scale + v_offset`.  `none`
models each `raise` in the Python code. -/
def load_binary_core (p : BinParams) (fileElems : List ℚ) : Option (List ℚ × List ℚ) :=
  if ¬ 0 < p.sampleRate then none
  else if p.width = 0 then none
  else if (binData p fileElems).length = 0 then none
  else if ¬ p.chanIndex < max 1 p.chanCount then none
  else
    match selectChannel (max 1 p.chanCount) p.chanIndex (binData p fileElems) with
    | none => none
    | some d =>
        some ((List.range d.length).map (fun i : ℕ => (i : ℚ) / p.sampleRate),
              d.map (fun v => v * p.scale + p.dcOffset))

/-- C5: the binary decode path computes `sample_bytes = width * channel_count`
and an effective offset aligned up to it (so it is `≡ 0 mod width*channels`
and `≥` the requested offset); a requested byte length is reduced by the
alignment delta, floored at 0; and on success the returned series satisfies
`time[i] = i / sample_rate` and `value[i] = raw[i] * scale + dc_offset`, where
`raw[i]` is the file element at `eff_offset/width + i*channel_count +
channel_index` (column `channel_index` of row `i`, incomplete rows dropped). -/
theorem binary_decode_spec (p : BinParams) (fileElems : List ℚ)
    (hw : 0 < p.width) (hc : 0 < p.chanCount) :
    sampleBytes p = p.width * p.chanCount ∧
    effOffset p % (p.width * p.chanCount) = 0 ∧
    p.offsetBytes ≤ effOffset p ∧
    (0 < p.lengthBytes →
      (effLengthBytes p : ℤ) =
        max 0 ((p.lengthBytes : ℤ) - ((effOffset p : ℤ) - (p.offsetBytes : ℤ)))) ∧
    (∀ t v, load_binary_core p fileElems = some (t, v) →
      t.length = v.length ∧
      ∀ i, i < v.length →
        t[i]? = some ((i : ℚ) / p.sampleRate) ∧
        v[i]? = some (fileElems.getD
          (effOffset p / p.width + i * p.chanCount + p.chanIndex) 0 * p.scale +
            p.dcOffset)) := by
  have hmax : max 1 p.chanCount = p.chanCount := max_eq_right hc
  have hsb : sampleBytes p = p.width * p.chanCount := by rw [sampleBytes, hmax]
  have hsbpos : 0 < sampleBytes p := by rw [hsb]; positivity
  have hoff_le : p.offsetBytes ≤ effOffset p := le_ceil_mul _ _ hsbpos
  refine ⟨hsb, ?_, hoff_le, ?_, ?_⟩
  · rw [← hsb, effOffset, Nat.mul_mod_left]
  · intro hl
    rw [effLengthBytes, if_pos hl]
    omega
  · intro t v h
    rw [load_binary_core] at h
    split_ifs at h with hsr hw0 hd0 hci
    rw [hmax] at h hci
    set b := effOffset p / p.width with hb_def
    set data := binData p fileElems with hdata_def
    have hdata_elem : ∀ j, j < data.length → data[j]? = fileElems[b + j]? := by
      intro j hj
      have hjc : j < readCount p fileElems := by
        have hlen3 : data.length ≤ readCount p fileElems := by
          rw [hdata_def, binData, ← hb_def]
          exact List.length_take_le _ _
        omega
      rw [hdata_def, binData, ← hb_def, List.getElem?_take_of_lt hjc, List.getElem?_drop]
    by_cases hcc : 1 < p.chanCount
    · -- interleaved multi-channel branch
      rw [selectChannel, if_pos hcc] at h
      set total := data.length / p.chanCount with htotal_def
      by_cases htz : total = 0
      · rw [if_pos htz] at h; exact absurd h (by simp)
      · rw [if_neg htz] at h
        obtain ⟨ht, hv⟩ := Prod.mk.injEq .. ▸ Option.some.inj h
        set d := (chunksN p.chanCount total (data.take (total * p.chanCount))).map
          (fun row => row.getD p.chanIndex 0) with hd_def
        have hdlen : d.length = total := by
          rw [hd_def, List.length_map, length_chunksN]
        have hvd : v = d.map (fun x => x * p.scale + p.dcOffset) := hv.symm
        have htd : t = (List.range d.length).map (fun i : ℕ => (i : ℚ) / p.sampleRate) :=
          ht.symm
        have hvlen : v.length = d.length := by rw [hvd, List.length_map]
        constructor
        · rw [htd, hvd]; simp
        · intro i hi
          have hid : i < d.length := by omega
          have hit : i < total := by omega
          have hrowfull : i * p.chanCount + p.chanCount ≤ total * p.chanCount := by
            have h3 : (i + 1) * p.chanCount ≤ total * p.chanCount :=
              Nat.mul_le_mul_right _ (by omega)
            rw [Nat.succ_mul] at h3
            exact h3
          refine ⟨?_, ?_⟩
          · rw [htd, List.getElem?_map, List.getElem?_range (by omega)]
            rfl
          · rw [hvd, List.getElem?_map, hd_def, List.getElem?_map,
                chunksN_getElem? _ _ _ _ hit]
            simp only [Option.map_some']
            have hrow : ((data.take (total * p.chanCount)).drop (i * p.chanCount)).take
                p.chanCount = (data.drop (i * p.chanCount)).take p.chanCount :=
              take_drop_take _ _ _ _ hrowfull
            rw [hrow]
            have hgd : ((data.drop (i * p.chanCount)).take p.chanCount).getD p.chanIndex 0 =
                fileElems.getD (b + (i * p.chanCount + p.chanIndex)) 0 := by
              have h5 : total * p.chanCount ≤ data.length := Nat.div_mul_le_self _ _
              rw [List.getD_eq_getElem?_getD, List.getElem?_take_of_lt hci,
                  List.getElem?_drop, hdata_elem _ (by omega), List.getD_eq_getElem?_getD]
            rw [hgd, show b + (i * p.chanCount + p.chanIndex) =
                b + i * p.chanCount + p.chanIndex by omega]
    · -- single-channel branch: ch_count = 1, ch_index = 0
      have hc1 : p.chanCount = 1 := by omega
      have hidx0 : p.chanIndex = 0 := by omega
      rw [selectChannel, if_neg hcc] at h
      obtain ⟨ht, hv⟩ := Prod.mk.injEq .. ▸ Option.some.inj h
      have hvd : v = data.map (fun x => x * p.scale + p.dcOffset) := hv.symm
      have htd : t = (List.range data.length).map (fun i : ℕ => (i : ℚ) / p.sampleRate) :=
        ht.symm
      have hvlen : v.length = data.length := by rw [hvd, List.length_map]
      constructor
      · rw [htd, hvd]; simp
      · intro i hi
        have hid : i < data.length := by omega
        refine ⟨?_, ?_⟩
        · rw [htd, List.getElem?_map, List.getElem?_range (by omega)]
          rfl
        · rw [hvd, List.getElem?_map, List.getElem?_eq_getElem hid]
          simp only [Option.map_some']
          have e2 : data[i] = data.getD i 0 := by
            rw [List.getD_eq_getElem?_getD, List.getElem?_eq_getElem hid]
            rfl
          have e3 : data.getD i 0 = fileElems.getD (b + i) 0 := by
            rw [List.getD_eq_getElem?_getD, List.getD_eq_getElem?_getD, hdata_elem _ hid]
          rw [e2, e3, hc1, hidx0, show b + i = b + i * 1 + 0 by omega]

/-- Concrete binary import parameters for the C5 witness: int16-style width 2,
two interleaved channels, channel 1, requested offset 3, read to end of file,
unit sample rate, scale 2, DC offset 1. -/
def binParamsEx : BinParams := ⟨2, 2, 1, 3, 0, 1, 2, 1⟩

/-- A six-element file (12 bytes) for the C5 witness. -/
def fileElemsEx : List ℚ := [10, 11, 12, 13, 14, 15]

/-- Witness for C5: on the concrete file, the effective offset is aligned to 4
and ≥ 3, and sample 1 of channel 1 is `file[2 + 1*2 + 1] * 2 + 1 = 31`. -/
theorem binary_decode_spec_witness :
    effOffset binParamsEx % (2 * 2) = 0 ∧
    binParamsEx.offsetBytes ≤ effOffset binParamsEx ∧
    ([(0 : ℚ), 1][1]? = some ((1 : ℚ) / 1) ∧
     [(27 : ℚ), 31][1]? =
       some (fileElemsEx.getD (effOffset binParamsEx / 2 + 1 * 2 + 1) 0 * 2 + 1)) := by
  obtain ⟨h1, h2, h3, h4, h5⟩ :=
    binary_decode_spec binParamsEx fileElemsEx (by decide) (by decide)
  have hload : load_binary_core binParamsEx fileElemsEx = some ([0, 1], [27, 31]) := by
    rw [load_binary_core]
    norm_num [binParamsEx, fileElemsEx, binData, readCount, effLengthBytes, effOffset,
      sampleBytes, selectChannel, chunksN, List.range_succ]
  have h6 := h5 [0, 1] [27, 31] hload
  exact ⟨h2, h3, h6.2 1 (by decide)⟩

/-! ### CSV format detection (`parsers/*.py can_parse`) and the registry -/

/-- Does `pat` occur as a leading block of `l`? (Python `s.startswith(pat)`.) -/
def leadsIn : List Char → List Char → Bool
  | [], _ => true
  | _ :: _, [] => false
  | a :: as, b :: bs => a == b && leadsIn as bs

/-- Does `pat` occur contiguously anywhere in `l`? (Python `pat in s`.) -/
def occursIn (pat : List Char) : List Char → Bool
  | [] => leadsIn pat []
  | b :: bs => leadsIn pat (b :: bs) || occursIn pat bs

/-- Python's `pat in s` on strings. -/
def strContains (s pat : String) : Bool := occursIn pat.toList s.toList

/-- ASCII lowercasing of one character (Python `str.lower`, ASCII fragment). -/
def lowerChar (c : Char) : Char :=
  if 'A' ≤ c && c ≤ 'Z' then Char.ofNat (c.toNat + 32) else c

/-- Python `s.lower()` (ASCII fragment). -/
def lowerStr (s : String) : String := ⟨s.toList.map lowerChar⟩

/-- Python `s.strip()`: drop leading and trailing whitespace. -/
def trimChars (l : List Char) : List Char :=
  ((l.dropWhile Char.isWhitespace).reverse.dropWhile Char.isWhitespace).reverse

/-- Python `s.split(sep)` for a one-character separator (keeps empty pieces). -/
def splitOnChar (sep : Char) : List Char → List (List Char)
  | [] => [[]]
  | c :: rest =>
      let r := splitOnChar sep rest
      if c == sep then [] :: r
      else
        match r with
        | h :: t => (c :: h) :: t
        | [] => [[c]]

/-- Numeric value of a digit run, most significant digit first. -/
def digitsVal (l : List Char) : ℕ := l.foldl (fun a c => 10 * a + (c.toNat - 48)) 0

/-- Exponent part of a float literal: optional sign then one or more digits,
nothing after. -/
def expTail (neg : Bool) (mant : ℚ) (t : List Char) : Option ℚ :=
  let (esgn, t1) : Bool × List Char :=
    match t with
    | '+' :: u => (true, u)
    | '-' :: u => (false, u)
    | u => (true, u)
  let ed := t1.takeWhile Char.isDigit
  let r3 := t1.dropWhile Char.isDigit
  if ed.isEmpty || !r3.isEmpty then none
  else some ((if neg then -mant else mant) *
    (if esgn then ((10 : ℚ) ^ digitsVal ed) else 1 / ((10 : ℚ) ^ digitsVal ed)))

/-- Python `float()` / `pd.to_numeric` on one cell, restricted to finite
decimal literals: optional sign, digits with optional fractional part (or a
bare fractional part), optional exponent.  `inf`/`nan` and underscore digit
separators are not modelled. -/
def pyFloatCore (l : List Char) : Option ℚ :=
  let (neg, l1) : Bool × List Char :=
    match l with
    | '+' :: t => (false, t)
    | '-' :: t => (true, t)
    | t => (false, t)
  let ip := l1.takeWhile Char.isDigit
  let r1 := l1.dropWhile Char.isDigit
  let (mantOk, mant, r2) : Bool × ℚ × List Char :=
    match r1 with
    | '.' :: t =>
        let fp := t.takeWhile Char.isDigit
        let r2 := t.dropWhile Char.isDigit
        (!ip.isEmpty || !fp.isEmpty,
         (digitsVal ip : ℚ) + (digitsVal fp : ℚ) / ((10 : ℚ) ^ fp.length), r2)
    | t => (!ip.isEmpty, (digitsVal ip : ℚ), t)
  if !mantOk then none
  else
    match r2 with
    | [] => some (if neg then -mant else mant)
    | 'e' :: t => expTail neg mant t
    | 'E' :: t => expTail neg mant t
    | _ => none

/-- `float(s)` strips surrounding whitespace first. -/
def pyFloat? (s : String) : Option ℚ := pyFloatCore (trimChars s.toList)

/-- Whether `float(s)` succeeds, on a cell already split into characters. -/
def pyFloatOkChars (l : List Char) : Bool := (pyFloatCore (trimChars l)).isSome

/-- `s.replace(' ', '')`. -/
def stripSpaceChars (l : List Char) : List Char := l.filter (fun c => !(c == ' '))

/-- `SiglentCSVParser.can_parse`: "Record Length" and "Model Number" markers. -/
def siglentCanParse (lines : List String) : Bool :=
  lines.any (fun l => strContains l "Record Length") &&
  lines.any (fun l => strContains l "Model Number")

/-- `BatronixCSVParser.can_parse`: trigger-time header marker. -/
def batronixCanParse (lines : List String) : Bool :=
  lines.any (fun l => strContains l "time difference to trigger in s")

/-- `RigolCSVParser.can_parse`: literal column header `Time(s),CH1V`. -/
def rigolCanParse (lines : List String) : Bool :=
  lines.any (fun l => strContains l "Time(s),CH1V")

/-- `RigolArbCSVParser.can_parse`: signed marker line. -/
def rigolArbCanParse (lines : List String) : Bool :=
  lines.any (fun l => strContains l "RIGOL:CSV DATA FILE")

/-- Anchored match of the regex `ch\d+\s+<kind>` at the head of `l`. -/
def chMatchAt (kind : List Char) (l : List Char) : Bool :=
  match l with
  | 'c' :: 'h' :: rest =>
      let ds := rest.takeWhile Char.isDigit
      let r1 := rest.dropWhile Char.isDigit
      let ws := r1.takeWhile Char.isWhitespace
      let r2 := r1.dropWhile Char.isWhitespace
      !ds.isEmpty && !ws.isEmpty && leadsIn kind r2
  | _ => false

/-- `re.search` of `ch\d+\s+<kind>` over a lowercased line. -/
def chSearch (kind : List Char) : List Char → Bool
  | [] => false
  | c :: rest => chMatchAt kind (c :: rest) || chSearch kind rest

/-- `BatronixDisplayCSVParser.can_parse`: a "start time in s" line plus a
header line carrying per-channel minimum/maximum columns. -/
def batronixDisplayCanParse (lines : List String) : Bool :=
  let ls := lines.map lowerStr
  let hasHeader1 := ls.any (fun l => strContains l "start time in s")
  let headerLine := (ls.find? (fun l =>
      strContains l "time in s" && strContains l "minimum" && strContains l "maximum")).getD ""
  hasHeader1 &&
    ((chSearch "minimum".toList headerLine.toList &&
      chSearch "maximum".toList headerLine.toList) ||
     (strContains headerLine "ch1 minimum" && strContains headerLine "ch1 maximum"))

/-- The numeric-pair fallback loop of `PyqtgraphCSVParser.can_parse` over
`first_lines[1:]`: two parsed pairs accept; the first failure stops the scan. -/
def numericPairScan : List String → ℕ → Bool
  | [], _ => false
  | l :: rest, cnt =>
      let t := trimChars l.toList
      if t.isEmpty then numericPairScan rest cnt
      else
        match ((splitOnChar ',' t).take 2).map trimChars with
        | v0 :: v1 :: _ =>
            if pyFloatOkChars (stripSpaceChars v0) && pyFloatOkChars (stripSpaceChars v1) then
              if 2 ≤ cnt + 1 then true else numericPairScan rest (cnt + 1)
            else false
        | _ => false

/-- `PyqtgraphCSVParser.can_parse`: an `x…,y…` header, or (absent known time
markers) two consecutive numeric-pair lines. -/
def pyqtgraphCanParse (lines : List String) : Bool :=
  match lines.find? (fun l => !(trimChars l.toList).isEmpty) with
  | none => false
  | some hd =>
      let header := trimChars hd.toList
      match (splitOnChar ',' header).map (fun p => (trimChars p).map lowerChar) with
      | p0 :: p1 :: _ =>
          if leadsIn ['x'] p0 && leadsIn ['y'] p1 then true
          else if occursIn "second".toList p0 || occursIn "time(".toList p0 then false
          else numericPairScan lines.tail 0
      | _ => false

/-- A registered parser: its display name (as listed in the unsupported-format
error) and its detection predicate. -/
structure ParserHandle where
  name : String
  canParse : List String → Bool

/-- `AVAILABLE_PARSERS` from `parsers/__init__.py`, in source order; the
generic Pyqtgraph fallback is kept last. -/
def AVAILABLE_PARSERS : List ParserHandle :=
  [⟨"Siglent", siglentCanParse⟩,
   ⟨"Batronix", batronixCanParse⟩,
   ⟨"BatronixDisplay", batronixDisplayCanParse⟩,
   ⟨"Rigol", rigolCanParse⟩,
   ⟨"RigolArb", rigolArbCanParse⟩,
   ⟨"Pyqtgraph", pyqtgraphCanParse⟩]

/-- The `for p in AVAILABLE_PARSERS: if p.can_parse(first_lines)` loop of
`load_csv` (lines 505-509): first match wins. -/
def selectParser (lines : List String) : Option ParserHandle :=
  AVAILABLE_PARSERS.find? (fun p => p.canParse lines)

/-- Outcome of the format-dispatch step of `load_csv`. -/
inductive LoadOutcome where
  | unsupported (formats : List String)
  | parsed (name : String)

/-- Dispatch step of `load_csv`: either the first matching parser's name, or
the unsupported-format error listing every registered format name. -/
def load_dispatch (lines : List String) : LoadOutcome :=
  match selectParser lines with
  | none => LoadOutcome.unsupported (AVAILABLE_PARSERS.map ParserHandle.name)
  | some p => LoadOutcome.parsed p.name

theorem find?_eq_getElem {p : α → Bool} {l : List α} {i : ℕ} (hi : i < l.length)
    (ht : p l[i] = true) (hf : ∀ j (hj : j < l.length), j < i → p l[j] = false) :
    l.find? p = some l[i] := by
  induction l generalizing i with
  | nil => simp at hi
  | cons a t ih =>
    cases i with
    | zero =>
      rw [List.getElem_cons_zero] at ht ⊢
      rw [List.find?_cons_of_pos _ ht]
    | succ i =>
      have ha : p a = false := by
        have := hf 0 (by simp) (by omega)
        rwa [List.getElem_cons_zero] at this
      rw [List.getElem_cons_succ] at ht ⊢
      rw [List.find?_cons_of_neg _ (by simp [ha])]
      exact ih (by simpa using hi) ht (fun j hj hji => by
        have := hf (j + 1) (by simpa using hj) (by omega)
        rwa [List.getElem_cons_succ] at this)

/-- C6: the registry tries the parsers in the fixed priority order Siglent,
Batronix, BatronixDisplay, Rigol, RigolArb, Pyqtgraph (generic fallback last)
and dispatches to the first whose `canParse` accepts the peeked lines; when
none accepts, the load fails with an unsupported-format outcome listing all
registered format names instead of producing a series. -/
theorem parser_priority_dispatch :
    (AVAILABLE_PARSERS.map ParserHandle.name =
      ["Siglent", "Batronix", "BatronixDisplay", "Rigol", "RigolArb", "Pyqtgraph"]) ∧
    (∀ (lines : List String) (i : ℕ) (hi : i < AVAILABLE_PARSERS.length),
      AVAILABLE_PARSERS[i].canParse lines = true →
      (∀ (j : ℕ) (hj : j < AVAILABLE_PARSERS.length), j < i →
        AVAILABLE_PARSERS[j].canParse lines = false) →
      load_dispatch lines = LoadOutcome.parsed (AVAILABLE_PARSERS[i]).name) ∧
    (∀ lines : List String, (∀ p ∈ AVAILABLE_PARSERS, p.canParse lines = false) →
      load_dispatch lines =
        LoadOutcome.unsupported
          ["Siglent", "Batronix", "BatronixDisplay", "Rigol", "RigolArb", "Pyqtgraph"]) := by
  refine ⟨rfl, ?_, ?_⟩
  · intro lines i hi ht hf
    rw [load_dispatch, selectParser, find?_eq_getElem hi ht hf]
  · intro lines hall
    have hnone : selectParser lines = none := by
      rw [selectParser, List.find?_eq_none]
      intro x hx
      simp [hall x hx]
    rw [load_dispatch, hnone]
    rfl

/-- Witness for C6: Siglent header lines dispatch to the Siglent parser (index
0, no earlier parser consulted); an unrecognizable line yields the
unsupported-format outcome listing all six names. -/
theorem parser_priority_dispatch_witness :
    load_dispatch ["Record Length,7000000", "Model Number,SDS2354X"] =
      LoadOutcome.parsed "Siglent" ∧
    load_dispatch ["hello"] =
      LoadOutcome.unsupported
        ["Siglent", "Batronix", "BatronixDisplay", "Rigol", "RigolArb", "Pyqtgraph"] :=
  ⟨parser_priority_dispatch.2.1 ["Record Length,7000000", "Model Number,SDS2354X"] 0
      (by decide) (by decide) (fun j hj hji => absurd hji (Nat.not_lt_zero j)),
   parser_priority_dispatch.2.2 ["hello"] (by decide)⟩

/-! ### Per-row float coercion of the parse methods (claim C7) -/

/-- Coercion of one data row's time and value cells
(`pd.to_numeric(errors='coerce')` on the first two columns); `none` when
either fails, mirroring a NaN in the `Second` or `Value` column. -/
def coercePair (r : List String) : Option (ℚ × ℚ) := do
  let a ← pyFloat? (r.getD 0 "")
  let b ← pyFloat? (r.getD 1 "")
  pure (a, b)

/-- `chunk_size = 100_000` shared by the chunked readers. -/
def csvChunkSize : ℕ := 100000

/-- All of `l` in chunks of `f` (the stream of `pd.read_csv(chunksize=f)`). -/
def chunksAll (f : ℕ) (l : List α) : List (List α) :=
  chunksN f ((l.length + f - 1) / f) l

/-- `PyqtgraphCSVParser.parse` row pipeline (lines 107-140): per chunk,
`to_numeric` both columns and drop rows with a NaN in either, then
concatenate the chunks. -/
def pyqtgraphParseRows (rows : List (List String)) : List (ℚ × ℚ) :=
  ((chunksAll csvChunkSize rows).map (fun c => c.filterMap coercePair)).flatten

/-- Spec 4.4 item (5), stated in the spec's words: exactly the rows whose time
and primary value columns both coerce to float, in input order. -/
def specCoercedRows (rows : List (List String)) : List (ℚ × ℚ) :=
  rows.filterMap coercePair

/-- One row of `BatronixDisplayCSVParser.parse` for a single-channel file
`time in s, CH1 minimum in V, CH1 maximum in V`: the primary value is the
min/max midpoint; a coercion failure in time, min or max yields a NaN in
`Second`/`Value` and the row is dropped. -/
def midPair (r : List String) : Option (ℚ × ℚ) := do
  let t ← pyFloat? (r.getD 0 "")
  let mn ← pyFloat? (r.getD 1 "")
  let mx ← pyFloat? (r.getD 2 "")
  pure (t, (mn + mx) / 2)

/-- `BatronixDisplayCSVParser.parse` row pipeline (lines 120-144): chunked
midpoint computation with `dropna(subset=['Second', 'Value'])`. -/
def batronixDisplayParseRows (rows : List (List String)) : List (ℚ × ℚ) :=
  ((chunksAll csvChunkSize rows).map (fun c => c.filterMap midPair)).flatten

/-- `SiglentCSVParser.parse` row pipeline (lines 39-47):
`pd.read_csv(dtype={'Second': float, 'Value': float})` raises `ValueError` on
the first cell that cannot coerce, so the whole parse fails (`none`) instead
of dropping the offending row. -/
def siglentParseRows (rows : List (List String)) : Option (List (ℚ × ℚ)) :=
  rows.mapM coercePair

theorem flatten_chunksAll (f : ℕ) (hf : 0 < f) (l : List α) :
    (chunksAll f l).flatten = l := by
  rw [chunksAll, flatten_chunksN]
  exact List.take_of_length_le (le_ceil_mul _ _ hf)

theorem mapM_eq_some_of_all {f : α → Option β} {l : List α}
    (h : ∀ a ∈ l, (f a).isSome) : l.mapM f = some (l.filterMap f) := by
  induction l with
  | nil => rfl
  | cons a t ih =>
    obtain ⟨b, hb⟩ := Option.isSome_iff_exists.1 (h a (by simp))
    rw [List.filterMap_cons_some hb, List.mapM_cons, hb,
        ih (fun x hx => h x (by simp [hx]))]
    rfl

theorem mapM_eq_none_of_failure {f : α → Option β} {l : List α} (a : α)
    (ha : a ∈ l) (hfa : f a = none) : l.mapM f = none := by
  induction l with
  | nil => simp at ha
  | cons x t ih =>
    rw [List.mapM_cons]
    rcases List.mem_cons.1 ha with rfl | hmem
    · simp [hfa]
    · cases hfx : f x with
      | none => simp
      | some b =>
          simp only [hfx, ih hmem]
          rfl

/-- C7 (amended): the Pyqtgraph and Batronix Display parsers coerce the
per-row columns to float and drop exactly the rows failing coercion in the
time or primary value column, returning precisely the coercible rows in
order; the Siglent parser instead coerces eagerly and fails the whole parse
as soon as any row fails to coerce (succeeding, with exactly the coerced
rows, only when every row coerces). -/
theorem parsers_row_coercion (rows : List (List String)) :
    pyqtgraphParseRows rows = specCoercedRows rows ∧
    batronixDisplayParseRows rows = rows.filterMap midPair ∧
    ((∀ r ∈ rows, (coercePair r).isSome) →
      siglentParseRows rows = some (specCoercedRows rows)) ∧
    (∀ r ∈ rows, coercePair r = none → siglentParseRows rows = none) := by
  refine ⟨?_, ?_, ?_, ?_⟩
  · rw [pyqtgraphParseRows, specCoercedRows, ← List.filterMap_flatten,
        flatten_chunksAll csvChunkSize (by norm_num [csvChunkSize])]
  · rw [batronixDisplayParseRows, ← List.filterMap_flatten,
        flatten_chunksAll csvChunkSize (by norm_num [csvChunkSize])]
  · exact mapM_eq_some_of_all
  · intro r hr hnone
    exact mapM_eq_none_of_failure r hr hnone

/-- Witness for C7 (amended): the Pyqtgraph path drops the bad middle row;
the Siglent path succeeds on fully coercible rows. -/
theorem parsers_row_coercion_witness :
    pyqtgraphParseRows [["5", "6"], ["x", "7"]] = specCoercedRows [["5", "6"], ["x", "7"]] ∧
    siglentParseRows [["5", "6"]] = some (specCoercedRows [["5", "6"]]) :=
  ⟨(parsers_row_coercion [["5", "6"], ["x", "7"]]).1,
   (parsers_row_coercion [["5", "6"]]).2.2.1 (by decide)⟩

/-- C7 counterexample: on rows `[["0","1"], ["abc","2"], ["1","3"]]` the claim
demands the parse keep exactly the coercible rows `[(0,1), (1,3)]`; the
Siglent parse path instead fails outright (`read_csv(dtype=float)` raises). -/
theorem siglent_coercion_cex :
    siglentParseRows [["0", "1"], ["abc", "2"], ["1", "3"]] = none ∧
    specCoercedRows [["0", "1"], ["abc", "2"], ["1", "3"]] = [(0, 1), (1, 3)] ∧
    (none : Option (List (ℚ × ℚ))) ≠
      some (specCoercedRows [["0", "1"], ["abc", "2"], ["1", "3"]]) := by
  refine ⟨by decide, by decide, by simp⟩

/-! ### Orchestrator state transition of `load_csv` (claim C8) -/

/-- The orchestrator's state: `self.metadata` and `self.raw_data`. -/
structure ViewerState where
  metadata : List (String × List String)
  rawData : Option (List (ℚ × ℚ))

/-- How a dispatched `parser.parse` call ends: a metadata/series pair, an
`InterruptedError` raised from the progress callback (cancel), or any other
exception. -/
inductive ParseOutcome where
  | ok (metadata : List (String × List String)) (series : List (ℚ × ℚ))
  | cancelled
  | err (msg : String)

/-- What `load_csv` reports. -/
inductive LoadResult where
  | loaded
  | unsupportedFmt (formats : List String)
  | cancelledNote
  | failed (msg : String)

/-- The tail of the `try` block: the tuple assignment
`self.metadata, self.raw_data = parser.parse(...)` happens only when the
parser returns; `InterruptedError` and other exceptions skip it. -/
def applyOutcome (st : ViewerState) (o : ParseOutcome) : ViewerState × LoadResult :=
  match o with
  | ParseOutcome.ok m d => ({ metadata := m, rawData := some d }, LoadResult.loaded)
  | ParseOutcome.cancelled => (st, LoadResult.cancelledNote)
  | ParseOutcome.err e => (st, LoadResult.failed e)

/-- Embedding of the `load_csv` control flow (lines 493-564): peek lines,
select a parser (unsupported-format error if none), run it, and perform
the state assignment only when the parser returns. -/
def load_csv_model (st : ViewerState) (lines : List String)
    (runParse : ParserHandle → ParseOutcome) : ViewerState × LoadResult :=
  match selectParser lines with
  | none => (st, LoadResult.unsupportedFmt (AVAILABLE_PARSERS.map ParserHandle.name))
  | some p => applyOutcome st (runParse p)

/-- C8: a failed or cancelled load is atomic: when the dispatched parse ends
in cancellation or error (whichever parser is selected), the previously
loaded metadata/series pair is left exactly as it was and the outcome is not
a successful load, so no (partial) series replaces the current one. -/
theorem load_failure_atomic (st : ViewerState) (lines : List String)
    (runParse : ParserHandle → ParseOutcome)
    (h : ∀ p, runParse p = ParseOutcome.cancelled ∨ ∃ e, runParse p = ParseOutcome.err e) :
    (load_csv_model st lines runParse).1 = st ∧
    (load_csv_model st lines runParse).2 ≠ LoadResult.loaded := by
  rw [load_csv_model]
  cases hs : selectParser lines with
  | none => exact ⟨rfl, by simp⟩
  | some p =>
      show (applyOutcome st (runParse p)).1 = st ∧
        (applyOutcome st (runParse p)).2 ≠ LoadResult.loaded
      rcases h p with hc | ⟨e, he⟩
      · rw [hc]
        exact ⟨rfl, by simp [applyOutcome]⟩
      · rw [he]
        exact ⟨rfl, by simp [applyOutcome]⟩

/-- Witness for C8: a cancelled parse leaves a previously loaded pair intact. -/
theorem load_failure_atomic_witness :
    (load_csv_model ⟨[("format", ["Rigol"])], some [(0, 1)]⟩ ["hello"]
        (fun _ => ParseOutcome.cancelled)).1 = ⟨[("format", ["Rigol"])], some [(0, 1)]⟩ ∧
    (load_csv_model ⟨[("format", ["Rigol"])], some [(0, 1)]⟩ ["hello"]
        (fun _ => ParseOutcome.cancelled)).2 ≠ LoadResult.loaded :=
  load_failure_atomic ⟨[("format", ["Rigol"])], some [(0, 1)]⟩ ["hello"]
    (fun _ => ParseOutcome.cancelled) (fun _ => Or.inl rfl)

end OscPlot
